import Mathlib

/-!
Verification of the Data-Analysis-Modules repository (three Python utilities)
against its natural-language specification.

Shallow embedding conventions:
* Tables (pandas DataFrames) are ordered association lists of named columns,
  each column a list of exact rationals.  Pandas library primitives that the
  source calls (`groupby(...).agg(['mean','std'])`, `Series.argmax`,
  `Series.max`, `.iloc` slicing, `in df.columns`) are embedded from their
  documented semantics: group keys are the sorted distinct values of the key
  column, `mean` is the arithmetic mean, `std` is the sample standard
  deviation with an N-1 denominator and is NaN for one-element groups,
  `argmax` is the position of the first occurrence of the maximum.
* Floating point is replaced by exact rational arithmetic except where a
  claim is specifically about IEEE behaviour (division by zero in
  `weighted_average_with_error`), where an explicit extended value type
  `XF` (finite / +inf / -inf / NaN) models the numpy semantics.
* The numeric outputs of `np.polyfit` (least-squares coefficients) and
  `np.roots` (approximate roots of the derivative) are taken as parameters
  of the embedded `compute_max`; everything the source does before and
  after those two calls is embedded exactly.  `np.polyder` is embedded
  exactly (it is coefficient-wise exact differentiation) and proved to be
  the formal derivative.
* Missing values (NaN cells of the aggregated table, unset fields of the
  `compute_max` result) are `Cell.nan` / `Option.none`.
-/

/-! ## Section 1: grouped aggregation (src/aggregate_dataframe.py) -/

/-- A cell of the aggregated output table: an exact rational, the square
root of a rational (sample standard deviations), or the missing-value
marker NaN that pandas produces for one-element groups. -/
inductive Cell where
  | num (q : ℚ)
  | sqrtOf (q : ℚ)
  | nan
  deriving DecidableEq

/-- Real interpretation of a cell; `none` is the missing-value marker. -/
noncomputable def Cell.toReal : Cell → Option ℝ
  | Cell.num q => some (q : ℝ)
  | Cell.sqrtOf q => some (Real.sqrt (q : ℝ))
  | Cell.nan => none

/-- A pandas DataFrame: an ordered collection of named rational columns. -/
structure DataFrame where
  cols : List (String × List ℚ)
  deriving DecidableEq

/-- Column names, in order (models `df.columns`). -/
def DataFrame.colNames (df : DataFrame) : List String := df.cols.map Prod.fst

/-- Membership test `name in df.columns` from the source. -/
def DataFrame.hasCol (df : DataFrame) (s : String) : Bool :=
  decide (s ∈ df.colNames)

/-- The column named `s`, or `[]` when absent (all uses are guarded by
`hasCol` checks, mirroring the pandas KeyError discipline). -/
def DataFrame.getColD (df : DataFrame) (s : String) : List ℚ :=
  ((df.cols.find? (fun p => p.1 == s)).map Prod.snd).getD []

/-- Arithmetic mean of a list (pandas `mean` on a group). -/
def listMean (l : List ℚ) : ℚ := l.sum / (l.length : ℚ)

/-- Sum of squared deviations divided by N-1 (the radicand of the pandas
sample standard deviation). -/
def sampleVar (l : List ℚ) : ℚ :=
  (l.map (fun a => (a - listMean l) ^ 2)).sum / ((l.length : ℚ) - 1)

/-- Pandas `std` (ddof=1) on a group: NaN for groups of size at most one,
otherwise the square root of the N-1 sample variance. -/
def stdCell (l : List ℚ) : Cell :=
  if l.length ≤ 1 then Cell.nan else Cell.sqrtOf (sampleVar l)

/-- The values of column `col` in the group of rows whose `idx` value is
`v` (pandas `groupby('idx')` group membership). -/
def groupVals (idx col : List ℚ) (v : ℚ) : List ℚ :=
  ((idx.zip col).filter (fun p => decide (p.1 = v))).map Prod.snd

/-- The group keys: distinct `idx` values in ascending order (pandas
`groupby` with its default `sort=True`). -/
def groupKeys (idx : List ℚ) : List ℚ := idx.toFinset.sort (· ≤ ·)

/-- base_columns from the source (line 49). -/
def base_columns : List String :=
  ["Smax", "Smax2", "Smax3", "Smax4", "M2Total", "M2Prime", "nBonds"]

/-- suffixes from the source (line 48). -/
def suffixes : List String := ["+", "-"]

/-- All candidate signed-suffix column names, in the order the source's
nested loops enumerate them (base outer, suffix inner). -/
def signedCols : List String :=
  base_columns.flatMap (fun b => suffixes.map (fun s => b ++ s))

/-- agg_cols from the source (lines 52-57): `prob` followed by every
signed-suffix column present in the input. -/
def aggCols (df : DataFrame) : List String :=
  "prob" :: signedCols.filter (fun c => df.hasCol c)

/-- Output name of the per-group mean of column `c` after the source's
renaming steps (lines 62-75): `avg_c`, except that `avg_prob` is renamed
back to `prob`. -/
def avgName (c : String) : String :=
  if c = "prob" then "prob" else "avg_" ++ c

/-- An aggregated table: ordered named columns of cells. -/
abbrev AggTable := List (String × List Cell)

/-- The flattened, renamed result of `df.groupby('idx')[agg_cols]
.agg(['mean','std'])` followed by `reset_index` (source lines 60-78):
the `idx` column of group keys, then for each aggregated column its
mean column and its std column. -/
def aggResults (df : DataFrame) (idxl : List ℚ) : AggTable :=
  ("idx", (groupKeys idxl).map Cell.num) ::
    (aggCols df).flatMap (fun c =>
      [(avgName c,
         (groupKeys idxl).map (fun v => Cell.num (listMean (groupVals idxl (df.getColD c) v)))),
       ("std_" ++ c,
         (groupKeys idxl).map (fun v => stdCell (groupVals idxl (df.getColD c) v)))])

/-- column_order from the source (lines 81-86): `idx`, `prob`, then for
each candidate signed column whose `avg_` column exists in the aggregated
result, the pair `avg_c`, `std_c`. -/
def columnOrder (names : List String) : List String :=
  ["idx", "prob"] ++
    (signedCols.filter (fun c => decide (("avg_" ++ c) ∈ names))).flatMap
      (fun c => ["avg_" ++ c, "std_" ++ c])

/-- transform_and_select_columns_dynamic (src/aggregate_dataframe.py,
lines 48-88).  The two `Except.error` branches model the pandas
KeyErrors: `df.groupby('idx')` fails when `idx` is absent, and selecting
`[agg_cols]` fails when any of `agg_cols` is absent (only `prob` can be,
since the signed columns were filtered by membership). -/
def transform_and_select_columns_dynamic (df : DataFrame) : Except String AggTable :=
  if df.hasCol "idx" = false then
    Except.error "KeyError: idx"
  else if (aggCols df).any (fun c => !(df.hasCol c)) then
    Except.error "KeyError: columns not found"
  else
    let idxl := df.getColD "idx"
    let agg := aggResults df idxl
    let order := columnOrder (agg.map Prod.fst)
    Except.ok (order.map (fun n => (n, ((agg.find? (fun p => p.1 == n)).map Prod.snd).getD [])))

/-- Column lookup on an aggregated output table. -/
def outCol (t : AggTable) (s : String) : Option (List Cell) :=
  (t.find? (fun p => p.1 == s)).map Prod.snd

/-- Value of column `n` of the flattened aggregation result (the column
selection `agg_results[column_order]` looks columns up by name). -/
def aggLookup (df : DataFrame) (idxl : List ℚ) (n : String) : List Cell :=
  (((aggResults df idxl).find? (fun p => p.1 == n)).map Prod.snd).getD []

/-- The DataFrame of the source docstring example, with an extra column
`foo` not matching the signed-suffix pattern. -/
def exampleDF : DataFrame :=
  ⟨[("idx", [1, 1, 2, 2]), ("prob", [1/10, 3/10, 1/2, 7/10]),
    ("Smax+", [10, 20, 30, 40]), ("nBonds-", [2, 4, 6, 8]), ("foo", [5, 5, 5, 5])]⟩

/-! ## Section 2: polynomial maximum estimator (src/compute_max.py) -/

/-- Maximum value of a sequence (pandas `Series.max`); 0 on the empty
list, which the source never queries. -/
def maxVal : List ℚ → ℚ
  | [] => 0
  | [a] => a
  | a :: b :: t => max a (maxVal (b :: t))

/-- Minimum value of a sequence (pandas `Series.min`). -/
def minVal : List ℚ → ℚ
  | [] => 0
  | [a] => a
  | a :: b :: t => min a (minVal (b :: t))

/-- Position of the first occurrence of the maximum (pandas
`Series.argmax`, source line 33). -/
def idxOfMax : List ℚ → ℕ
  | [] => 0
  | a :: t => if a = maxVal (a :: t) then 0 else idxOfMax t + 1

/-- start = max(0, idx_of_max - offset) (source line 34). -/
def windowStart (i : ℕ) (offset : ℤ) : ℕ := (max 0 ((i : ℤ) - offset)).toNat

/-- Effective end of the slice `x.iloc[start:end]` with
end = min(len(x), idx_of_max + offset + 1) (source line 35).  A negative
Python slice bound counts from the end of the sequence; for the
non-negative offsets of the specification the value is just
min(len(x), idx_of_max + offset + 1). -/
def windowEnd (n i : ℕ) (offset : ℤ) : ℕ :=
  (if min (n : ℤ) ((i : ℤ) + offset + 1) < 0 then
    (n : ℤ) + min (n : ℤ) ((i : ℤ) + offset + 1)
  else min (n : ℤ) ((i : ℤ) + offset + 1)).toNat

/-- The clipped fit window `l.iloc[start:end]` (source lines 36-37). -/
def window (l : List ℚ) (i : ℕ) (offset : ℤ) : List ℚ :=
  (l.drop (windowStart i offset)).take (windowEnd l.length i offset - windowStart i offset)

/-- empirical_max_x = x.iloc[y.argmax()] (source line 22). -/
def empiricalMaxX (x y : List ℚ) : ℚ := x.getD (idxOfMax y) 0

/-- empirical_max_y = y.max() (source line 23). -/
def empiricalMaxY (y : List ℚ) : ℚ := maxVal y

/-- Horner evaluation of a polynomial given by its coefficient list in
numpy order, highest degree first (`np.poly1d` / `np.polyval`). -/
def polyEvalL (c : List ℚ) (x : ℚ) : ℚ := c.foldl (fun acc a => acc * x + a) 0

/-- np.polyder on a highest-first coefficient list: drop the constant
term and multiply each remaining coefficient by its degree, so entry j
of the result is c[j] * (deg - j) with deg = c.length - 1. -/
def polyder (c : List ℚ) : List ℚ :=
  (List.range (c.length - 1)).map (fun j => c.getD j 0 * ((c.length - 1 - j : ℕ) : ℚ))

/-- The polynomial denoted by a highest-first coefficient list. -/
noncomputable def polyOf (c : List ℚ) : Polynomial ℚ :=
  ∑ i ∈ Finset.range c.reverse.length,
    Polynomial.C (c.reverse.getD i 0) * Polynomial.X ^ i

/-- Complex numbers handed back by `np.roots`, as (real, imaginary)
pairs of rationals; `critical_points[np.isreal(critical_points)].real`
(source line 50) keeps the real parts of entries whose imaginary part is
exactly zero, in order. -/
def isrealFilter (roots : List (ℚ × ℚ)) : List ℚ :=
  (roots.filter (fun z => decide (z.2 = 0))).map Prod.fst

/-- valid_points (source lines 53-57): pairs (x_c, poly(x_c)) for the
real critical points lying within the inclusive window bounds. -/
def validPoints (f : ℚ → ℚ) (lo hi : ℚ) (rts : List ℚ) : List (ℚ × ℚ) :=
  (rts.filter (fun t => decide (lo ≤ t ∧ t ≤ hi))).map (fun t => (t, f t))

/-- Python `max(valid_points, key=lambda p: p[1])` on a possibly empty
list: the first element attaining the maximal second component, or
`none` when the list is empty. -/
def pyMax : List (ℚ × ℚ) → Option (ℚ × ℚ)
  | [] => none
  | p :: ps => some (ps.foldl (fun b q => if b.2 < q.2 then q else b) p)

/-- The result record of compute_max (source lines 21-30).  The RMSE
field of the source is a float produced directly by the abstracted
least-squares fit and is not modelled; all other fields are.  `none` is
the source's `None` missing-value marker. -/
structure CMResult where
  empirical_max_x : ℚ
  empirical_max_y : ℚ
  poly_max_x : Option ℚ
  poly_max_y : Option ℚ
  error_x : Option ℚ
  error_y : Option ℚ
  warnings : List String
  deriving DecidableEq

/-- Source lines 47-70: filter the supplied roots of the derivative to
the real ones inside the inclusive window bounds, pick the one with the
greatest fitted value, and fill in the absolute errors; with no valid
point, record the warning and return with the optional fields unset. -/
def finishComputeMax (emx emy : ℚ) (c : List ℚ) (lo hi : ℚ)
    (roots : List (ℚ × ℚ)) : CMResult :=
  match pyMax (validPoints (polyEvalL c) lo hi (isrealFilter roots)) with
  | none =>
      { empirical_max_x := emx, empirical_max_y := emy,
        poly_max_x := none, poly_max_y := none,
        error_x := none, error_y := none,
        warnings := ["No valid maxima found in polynomial fit"] }
  | some p =>
      { empirical_max_x := emx, empirical_max_y := emy,
        poly_max_x := some p.1, poly_max_y := some p.2,
        error_x := some |emx - p.1|, error_y := some |emy - p.2|,
        warnings := [] }

/-- compute_max (src/compute_max.py).  `c` stands for the coefficient
list returned by `np.polyfit(x_window, y_window, order)` and `roots` for
the complex root list returned by `np.roots(np.polyder(poly_func))`;
both are numeric library outputs taken as parameters.  `order` is
consumed only by the abstracted fit: the source performs no validation
on it, on `offset`, or on the window size. -/
def compute_max (x y : List ℚ) (offset : ℤ) (order : ℕ) (c : List ℚ)
    (roots : List (ℚ × ℚ)) : CMResult :=
  let _ := order
  finishComputeMax (empiricalMaxX x y) (empiricalMaxY y) c
    (minVal (window x (idxOfMax y) offset)) (maxVal (window x (idxOfMax y) offset)) roots

/-! ## Section 3: weighted average (src/error_weighted_average.py) -/

/-- weights = 1 / error**2 (source line 16), exact-arithmetic model. -/
def weights (errs : List ℚ) : List ℚ := errs.map (fun e => 1 / e ^ 2)

/-- weighted_avg (source line 17), exact-arithmetic model. -/
def weighted_average (vals errs : List ℚ) : ℚ :=
  (List.zipWith (· * ·) vals (weights errs)).sum / (weights errs).sum

/-- weighted_average_with_error (source lines 16-20), exact-arithmetic
model: the returned pair of the weighted average and
sqrt(1 / sum(weights)). -/
noncomputable def weighted_average_with_error (vals errs : List ℚ) : ℚ × ℝ :=
  (weighted_average vals errs, Real.sqrt ((((1 : ℚ) / (weights errs).sum : ℚ) : ℝ)))

/-- IEEE-style extended value for the floating-point model: a finite
rational, +inf, -inf, or NaN.  Signed zero is not modelled; it plays no
role in the inputs reachable here (squares and sums of squares). -/
inductive XF where
  | fin (q : ℚ)
  | inf
  | ninf
  | nan
  deriving DecidableEq

/-- IEEE addition. -/
def XF.add : XF → XF → XF
  | XF.nan, _ => XF.nan
  | _, XF.nan => XF.nan
  | XF.inf, XF.ninf => XF.nan
  | XF.ninf, XF.inf => XF.nan
  | XF.inf, _ => XF.inf
  | _, XF.inf => XF.inf
  | XF.ninf, _ => XF.ninf
  | _, XF.ninf => XF.ninf
  | XF.fin a, XF.fin b => XF.fin (a + b)

/-- IEEE multiplication. -/
def XF.mul : XF → XF → XF
  | XF.nan, _ => XF.nan
  | _, XF.nan => XF.nan
  | XF.fin a, XF.fin b => XF.fin (a * b)
  | XF.inf, XF.inf => XF.inf
  | XF.inf, XF.ninf => XF.ninf
  | XF.ninf, XF.inf => XF.ninf
  | XF.ninf, XF.ninf => XF.inf
  | XF.inf, XF.fin b => if 0 < b then XF.inf else if b < 0 then XF.ninf else XF.nan
  | XF.fin a, XF.inf => if 0 < a then XF.inf else if a < 0 then XF.ninf else XF.nan
  | XF.ninf, XF.fin b => if 0 < b then XF.ninf else if b < 0 then XF.inf else XF.nan
  | XF.fin a, XF.ninf => if 0 < a then XF.ninf else if a < 0 then XF.inf else XF.nan

/-- IEEE division (with unsigned zero: finite / 0 follows the sign of
the numerator, as in numpy's `1 / 0.0 = inf`; `0 / 0`, `inf / inf` are
NaN; finite / inf is 0). -/
def XF.div : XF → XF → XF
  | XF.nan, _ => XF.nan
  | _, XF.nan => XF.nan
  | XF.fin a, XF.fin b =>
      if b = 0 then (if 0 < a then XF.inf else if a < 0 then XF.ninf else XF.nan)
      else XF.fin (a / b)
  | XF.fin _, XF.inf => XF.fin 0
  | XF.fin _, XF.ninf => XF.fin 0
  | XF.inf, XF.inf => XF.nan
  | XF.inf, XF.ninf => XF.nan
  | XF.ninf, XF.inf => XF.nan
  | XF.ninf, XF.ninf => XF.nan
  | XF.inf, XF.fin b => if b < 0 then XF.ninf else XF.inf
  | XF.ninf, XF.fin b => if b < 0 then XF.inf else XF.ninf

/-- np.sum: fold of IEEE addition starting from 0. -/
def XF.sum (l : List XF) : XF := l.foldl XF.add (XF.fin 0)

/-- Extended real result of an IEEE square root. -/
inductive XR where
  | fin (r : ℝ)
  | inf
  | ninf
  | nan

/-- IEEE square root: NaN on negatives and -inf, inf on inf. -/
noncomputable def XF.fsqrt : XF → XR
  | XF.nan => XR.nan
  | XF.inf => XR.inf
  | XF.ninf => XR.nan
  | XF.fin q => if q < 0 then XR.nan else XR.fin (Real.sqrt (q : ℝ))

/-- weighted_average_with_error under the IEEE model: exactly the three
lines of the source, with every numpy operation total (numpy emits
RuntimeWarnings on division by zero but never raises). -/
noncomputable def weighted_average_with_error_ieee (vals errs : List XF) : XF × XR :=
  let w := errs.map (fun e => (XF.fin 1).div (e.mul e))
  ((XF.sum (List.zipWith XF.mul vals w)).div (XF.sum w),
   ((XF.fin 1).div (XF.sum w)).fsqrt)

/-! ## Supporting lemmas: strings and column names -/

lemma strCat_left_inj {a b c : String} (h : a ++ b = a ++ c) : b = c := by
  have hd := congrArg String.data h
  simp only [String.data_append] at hd
  exact String.ext (List.append_cancel_left hd)

lemma avg_ne_idx (c : String) : "avg_" ++ c ≠ "idx" := by
  intro h
  have := congrArg String.data h
  simp [String.data_append] at this

lemma std_ne_idx (c : String) : "std_" ++ c ≠ "idx" := by
  intro h
  have := congrArg String.data h
  simp [String.data_append] at this

lemma avg_ne_prob (c : String) : "avg_" ++ c ≠ "prob" := by
  intro h
  have := congrArg String.data h
  simp [String.data_append] at this

lemma std_ne_prob (c : String) : "std_" ++ c ≠ "prob" := by
  intro h
  have := congrArg String.data h
  simp [String.data_append] at this

lemma avg_ne_std (c c' : String) : "avg_" ++ c ≠ "std_" ++ c' := by
  intro h
  have := congrArg String.data h
  simp [String.data_append] at this

lemma prob_not_mem_signedCols : "prob" ∉ signedCols := by decide

lemma avgName_signed (c : String) (hc : c ∈ signedCols) : avgName c = "avg_" ++ c := by
  have : c ≠ "prob" := fun h => prob_not_mem_signedCols (h ▸ hc)
  simp [avgName, this]

lemma mem_aggCols (df : DataFrame) (c : String) :
    c ∈ aggCols df ↔ c = "prob" ∨ (c ∈ signedCols ∧ df.hasCol c = true) := by
  simp [aggCols, List.mem_filter]

/-! ## Supporting lemmas: lookups in the aggregated table -/

lemma find?_flatMap_avg (L : List String) (m s : String → List Cell) (c : String)
    (hc : c ∈ L) (hcp : c ≠ "prob") :
    ((L.flatMap (fun d => [(avgName d, m d), ("std_" ++ d, s d)])).find?
      (fun p => p.1 == ("avg_" ++ c))) = some ("avg_" ++ c, m c) := by
  induction L with
  | nil => cases hc
  | cons d t ih =>
    rw [List.flatMap_cons, List.find?_append]
    by_cases hdc : d = c
    · subst hdc
      simp [List.find?_cons, avgName, hcp]
    · have h1 : (avgName d == "avg_" ++ c) = false := by
        simp only [beq_eq_false_iff_ne, ne_eq]
        intro h
        by_cases hdp : d = "prob"
        · simp [avgName, hdp] at h
          exact avg_ne_prob c h.symm
        · simp [avgName, hdp] at h
          exact hdc (strCat_left_inj h)
      have h2 : (("std_" ++ d) == "avg_" ++ c) = false := by
        simp only [beq_eq_false_iff_ne, ne_eq]
        intro h
        exact avg_ne_std c d h.symm
      have hct : c ∈ t := by
        rcases List.mem_cons.mp hc with h | h
        · exact absurd h.symm hdc
        · exact h
      simp [List.find?_cons, h1, h2, ih hct]

lemma find?_flatMap_std (L : List String) (m s : String → List Cell) (c : String)
    (hc : c ∈ L) :
    ((L.flatMap (fun d => [(avgName d, m d), ("std_" ++ d, s d)])).find?
      (fun p => p.1 == ("std_" ++ c))) = some ("std_" ++ c, s c) := by
  induction L with
  | nil => cases hc
  | cons d t ih =>
    rw [List.flatMap_cons, List.find?_append]
    have h1 : (avgName d == "std_" ++ c) = false := by
      simp only [beq_eq_false_iff_ne, ne_eq]
      intro h
      by_cases hdp : d = "prob"
      · simp [avgName, hdp] at h
        exact std_ne_prob c h.symm
      · simp [avgName, hdp] at h
        exact avg_ne_std d c h
    by_cases hdc : d = c
    · subst hdc
      simp [List.find?_cons, h1]
    · have h2 : (("std_" ++ d) == "std_" ++ c) = false := by
        simp only [beq_eq_false_iff_ne, ne_eq]
        intro h
        exact hdc (strCat_left_inj h)
      have hct : c ∈ t := by
        rcases List.mem_cons.mp hc with h | h
        · exact absurd h.symm hdc
        · exact h
      simp [List.find?_cons, h1, h2, ih hct]

lemma find?_flatMap_prob (df : DataFrame) (m s : String → List Cell) :
    (((aggCols df).flatMap (fun d => [(avgName d, m d), ("std_" ++ d, s d)])).find?
      (fun p => p.1 == "prob")) = some ("prob", m "prob") := by
  rw [aggCols, List.flatMap_cons]
  simp [List.find?_append, List.find?_cons, avgName]


lemma tf_ok (df : DataFrame) (hidx : df.hasCol "idx" = true)
    (hprob : df.hasCol "prob" = true) :
    transform_and_select_columns_dynamic df =
      Except.ok ((columnOrder ((aggResults df (df.getColD "idx")).map Prod.fst)).map
        (fun n => (n, aggLookup df (df.getColD "idx") n))) := by
  have hany : (aggCols df).any (fun c => !(df.hasCol c)) = false := by
    rw [List.any_eq_false]
    intro c hc
    rcases (mem_aggCols df c).mp hc with h | ⟨_, h⟩ <;> simp [h, hprob]
  simp [transform_and_select_columns_dynamic, hidx, hany, aggLookup]

lemma aggResults_names (df : DataFrame) (idxl : List ℚ) :
    (aggResults df idxl).map Prod.fst =
      "idx" :: (aggCols df).flatMap (fun c => [avgName c, "std_" ++ c]) := by
  simp [aggResults, List.map_flatMap]

lemma avg_mem_aggNames (df : DataFrame) (idxl : List ℚ) (c : String)
    (hc : c ∈ signedCols) :
    (("avg_" ++ c) ∈ (aggResults df idxl).map Prod.fst) ↔ df.hasCol c = true := by
  have hcp : c ≠ "prob" := fun h => prob_not_mem_signedCols (h ▸ hc)
  rw [aggResults_names]
  simp only [List.mem_cons, List.mem_flatMap]
  constructor
  · rintro (habs | ⟨d, hd, hmem⟩)
    · exact absurd habs (avg_ne_idx c)
    · rcases (mem_aggCols df d).mp hd with hdp | ⟨hds, hdc⟩
      · subst hdp
        exfalso
        rw [show avgName "prob" = "prob" from rfl] at hmem
        rcases hmem with h | h | h
        · exact avg_ne_prob c h
        · exact avg_ne_std c "prob" h
        · exact List.not_mem_nil _ h
      · have hdp : d ≠ "prob" := fun h => prob_not_mem_signedCols (h ▸ hds)
        rw [show avgName d = "avg_" ++ d by simp [avgName, hdp]] at hmem
        rcases hmem with h | h | h
        · rw [strCat_left_inj h]
          exact hdc
        · exact absurd h (avg_ne_std c d)
        · exact absurd h (List.not_mem_nil _)
  · intro h
    refine Or.inr ⟨c, (mem_aggCols df c).mpr (Or.inr ⟨hc, h⟩), ?_⟩
    rw [show avgName c = "avg_" ++ c by simp [avgName, hcp]]
    exact Or.inl rfl

lemma columnOrder_eq (df : DataFrame) (idxl : List ℚ) :
    columnOrder ((aggResults df idxl).map Prod.fst) =
      ["idx", "prob"] ++
        (signedCols.filter (fun c => df.hasCol c)).flatMap
          (fun c => ["avg_" ++ c, "std_" ++ c]) := by
  unfold columnOrder
  congr 2
  apply List.filter_congr
  intro c hc
  simp [avg_mem_aggNames df idxl c hc]

lemma find?_map_pair {α : Type} (N : List String) (g : String → α) (n : String)
    (hn : n ∈ N) :
    ((N.map (fun m => (m, g m))).find? (fun p => p.1 == n)) = some (n, g n) := by
  induction N with
  | nil => cases hn
  | cons d t ih =>
    by_cases hdn : d = n
    · subst hdn
      simp [List.find?_cons]
    · have hnt : n ∈ t := by
        rcases List.mem_cons.mp hn with h | h
        · exact absurd h.symm hdn
        · exact h
      simp [List.find?_cons, hdn, ih hnt]

lemma aggLookup_idx (df : DataFrame) (idxl : List ℚ) :
    aggLookup df idxl "idx" = (groupKeys idxl).map Cell.num := by
  simp [aggLookup, aggResults, List.find?_cons]

lemma aggLookup_prob (df : DataFrame) (idxl : List ℚ) :
    aggLookup df idxl "prob" =
      (groupKeys idxl).map
        (fun v => Cell.num (listMean (groupVals idxl (df.getColD "prob") v))) := by
  unfold aggLookup aggResults
  rw [List.find?_cons_of_neg _ (by simp), find?_flatMap_prob]
  rfl

lemma aggLookup_avg (df : DataFrame) (idxl : List ℚ) (c : String)
    (hc : c ∈ signedCols) (hcol : df.hasCol c = true) :
    aggLookup df idxl ("avg_" ++ c) =
      (groupKeys idxl).map
        (fun v => Cell.num (listMean (groupVals idxl (df.getColD c) v))) := by
  have hcp : c ≠ "prob" := fun h => prob_not_mem_signedCols (h ▸ hc)
  unfold aggLookup aggResults
  rw [List.find?_cons_of_neg _ (by simpa using fun h => avg_ne_idx c h.symm),
    find?_flatMap_avg (aggCols df) _ _ c
      ((mem_aggCols df c).mpr (Or.inr ⟨hc, hcol⟩)) hcp]
  rfl

lemma aggLookup_std (df : DataFrame) (idxl : List ℚ) (c : String)
    (hc : c ∈ signedCols) (hcol : df.hasCol c = true) :
    aggLookup df idxl ("std_" ++ c) =
      (groupKeys idxl).map
        (fun v => stdCell (groupVals idxl (df.getColD c) v)) := by
  unfold aggLookup aggResults
  rw [List.find?_cons_of_neg _ (by simpa using fun h => std_ne_idx c h.symm),
    find?_flatMap_std (aggCols df) _ _ c
      ((mem_aggCols df c).mpr (Or.inr ⟨hc, hcol⟩))]
  rfl

/-! ## Claim theorems for the grouped aggregation -/

/-- C9: the grouped aggregation fails with an error exactly when the
`idx` column or the `prob` column is absent from the input table; in
particular it never fails merely because an optional signed-suffix
column is absent. -/
theorem transform_fails_iff_required_column_missing (df : DataFrame) :
    (∃ e, transform_and_select_columns_dynamic df = Except.error e) ↔
      (df.hasCol "idx" = false ∨ df.hasCol "prob" = false) := by
  constructor
  · rintro ⟨e, he⟩
    by_contra hcon
    push_neg at hcon
    obtain ⟨h1, h2⟩ := hcon
    rw [tf_ok df (by simpa using h1) (by simpa using h2)] at he
    cases he
  · intro h
    rcases h with h | h
    · exact ⟨"KeyError: idx", by simp [transform_and_select_columns_dynamic, h]⟩
    · by_cases hidx : df.hasCol "idx" = false
      · exact ⟨"KeyError: idx", by simp [transform_and_select_columns_dynamic, hidx]⟩
      · have hany : (aggCols df).any (fun c => !(df.hasCol c)) = true :=
          List.any_eq_true.mpr ⟨"prob", by simp [aggCols], by simp [h]⟩
        exact ⟨"KeyError: columns not found",
          by simp [transform_and_select_columns_dynamic, hidx, hany]⟩

/-- C8: the output columns appear in the fixed order `idx`, `prob`, then
for each base name in the fixed list and each suffix (`+` then `-`) the
pair `avg_c`, `std_c` for exactly the signed columns present in the
input (`signedCols` enumerates base times suffix in that fixed order);
every output column name is one of these, so input columns not matching
the pattern are excluded. -/
theorem transform_output_column_order (df : DataFrame)
    (hidx : df.hasCol "idx" = true) (hprob : df.hasCol "prob" = true) :
    ∃ out, transform_and_select_columns_dynamic df = Except.ok out ∧
      out.map Prod.fst =
        ["idx", "prob"] ++
          (signedCols.filter (fun c => df.hasCol c)).flatMap
            (fun c => ["avg_" ++ c, "std_" ++ c]) ∧
      ∀ s ∈ out.map Prod.fst,
        s = "idx" ∨ s = "prob" ∨
          ∃ c ∈ signedCols, df.hasCol c = true ∧ (s = "avg_" ++ c ∨ s = "std_" ++ c) := by
  refine ⟨_, tf_ok df hidx hprob, ?_⟩
  have hnames : ((columnOrder ((aggResults df (df.getColD "idx")).map Prod.fst)).map
        (fun n => (n, aggLookup df (df.getColD "idx") n))).map Prod.fst =
      columnOrder ((aggResults df (df.getColD "idx")).map Prod.fst) := by
    rw [List.map_map]
    exact List.map_id _
  refine ⟨by rw [hnames, columnOrder_eq], ?_⟩
  rw [hnames, columnOrder_eq]
  intro s hs
  rcases List.mem_append.mp hs with h | h
  · rcases List.mem_cons.mp h with h1 | h1
    · exact Or.inl h1
    · rcases List.mem_cons.mp h1 with h2 | h2
      · exact Or.inr (Or.inl h2)
      · exact absurd h2 (List.not_mem_nil _)
  · obtain ⟨c, hc, hsc⟩ := List.mem_flatMap.mp h
    have hcf := List.mem_filter.mp hc
    refine Or.inr (Or.inr ⟨c, hcf.1, hcf.2, ?_⟩)
    rcases List.mem_cons.mp hsc with h1 | h1
    · exact Or.inl h1
    · rcases List.mem_cons.mp h1 with h2 | h2
      · exact Or.inr h2
      · exact absurd h2 (List.not_mem_nil _)

/-- C10: the output rows are ordered by strictly ascending `idx` value:
the output `idx` column is the strictly sorted list of exactly the
distinct values of the input `idx` column. -/
theorem transform_rows_sorted_by_idx (df : DataFrame)
    (hidx : df.hasCol "idx" = true) (hprob : df.hasCol "prob" = true) :
    ∃ out, transform_and_select_columns_dynamic df = Except.ok out ∧
      outCol out "idx" = some ((groupKeys (df.getColD "idx")).map Cell.num) ∧
      List.Sorted (· < ·) (groupKeys (df.getColD "idx")) ∧
      (∀ v, v ∈ groupKeys (df.getColD "idx") ↔ v ∈ df.getColD "idx") := by
  refine ⟨_, tf_ok df hidx hprob, ?_, Finset.sort_sorted_lt _, ?_⟩
  · rw [outCol, find?_map_pair _ _ _
      (by rw [columnOrder_eq]; exact List.mem_append_left _ (by simp))]
    rw [aggLookup_idx]
    rfl
  · intro v
    simp [groupKeys, Finset.mem_sort, List.mem_toFinset]

lemma ratCast_list_sum (l : List ℚ) : ((l.sum : ℚ) : ℝ) = (l.map (fun a : ℚ => (a : ℝ))).sum := by
  induction l with
  | nil => simp
  | cons a t ih => simp [List.sum_cons, Rat.cast_add, ih]

lemma sampleVar_cast (l : List ℚ) :
    ((sampleVar l : ℚ) : ℝ) =
      (l.map (fun a : ℚ =>
        ((a : ℝ) - (l.map (fun b : ℚ => (b : ℝ))).sum / (l.length : ℝ)) ^ 2)).sum /
        ((l.length : ℝ) - 1) := by
  unfold sampleVar
  rw [Rat.cast_div, ratCast_list_sum, List.map_map]
  rw [show ((((l.length : ℚ) - 1) : ℚ) : ℝ) = (l.length : ℝ) - 1 by push_cast; ring]
  congr 1
  congr 1
  apply List.map_congr_left
  intro a _
  simp only [Function.comp_apply]
  rw [show (((a - listMean l) ^ 2 : ℚ) : ℝ) = ((a : ℝ) - ((listMean l : ℚ) : ℝ)) ^ 2 by
    push_cast; ring]
  rw [show ((listMean l : ℚ) : ℝ) = (l.map (fun b : ℚ => (b : ℝ))).sum / (l.length : ℝ) by
    unfold listMean
    rw [Rat.cast_div, ratCast_list_sum]
    push_cast
    ring]

lemma mem_columnOrder_length (df : DataFrame) (idxl : List ℚ) (n : String)
    (hn : n ∈ columnOrder ((aggResults df idxl).map Prod.fst)) :
    (aggLookup df idxl n).length = (groupKeys idxl).length := by
  rw [columnOrder_eq] at hn
  rcases List.mem_append.mp hn with h | h
  · rcases List.mem_cons.mp h with h1 | h1
    · subst h1
      rw [aggLookup_idx, List.length_map]
    · rcases List.mem_cons.mp h1 with h2 | h2
      · subst h2
        rw [aggLookup_prob, List.length_map]
      · exact absurd h2 (List.not_mem_nil _)
  · obtain ⟨c, hc, hsc⟩ := List.mem_flatMap.mp h
    have hcf := List.mem_filter.mp hc
    rcases List.mem_cons.mp hsc with h1 | h1
    · subst h1
      rw [aggLookup_avg df idxl c hcf.1 hcf.2, List.length_map]
    · rcases List.mem_cons.mp h1 with h2 | h2
      · subst h2
        rw [aggLookup_std df idxl c hcf.1 hcf.2, List.length_map]
      · exact absurd h2 (List.not_mem_nil _)

/-- C1: with `idx` and `prob` present, the aggregation returns one row
per distinct `idx` value (every output column has that length); the
output `prob` column holds the per-group arithmetic means of `prob`; for
each present signed column `c`, `avg_c` holds the per-group arithmetic
means and `std_c` the per-group pandas sample standard deviation, which
is the NaN missing marker (distinct from the number 0) exactly for
groups of size one, and otherwise the square root of the N-1 sample
variance, whose real value is the textbook sample standard deviation. -/
theorem transform_group_means_and_stds (df : DataFrame)
    (hidx : df.hasCol "idx" = true) (hprob : df.hasCol "prob" = true) :
    ∃ out, transform_and_select_columns_dynamic df = Except.ok out ∧
      (∀ p ∈ out, p.2.length = (df.getColD "idx").toFinset.card) ∧
      outCol out "prob" =
        some ((groupKeys (df.getColD "idx")).map
          (fun v => Cell.num (listMean (groupVals (df.getColD "idx") (df.getColD "prob") v)))) ∧
      (∀ c ∈ signedCols, df.hasCol c = true →
        outCol out ("avg_" ++ c) =
          some ((groupKeys (df.getColD "idx")).map
            (fun v => Cell.num (listMean (groupVals (df.getColD "idx") (df.getColD c) v)))) ∧
        outCol out ("std_" ++ c) =
          some ((groupKeys (df.getColD "idx")).map
            (fun v =>
              if (groupVals (df.getColD "idx") (df.getColD c) v).length ≤ 1 then Cell.nan
              else Cell.sqrtOf (sampleVar (groupVals (df.getColD "idx") (df.getColD c) v))))) ∧
      (∀ l : List ℚ, 2 ≤ l.length →
        (Cell.sqrtOf (sampleVar l)).toReal =
          some (Real.sqrt
            ((l.map (fun a : ℚ =>
              ((a : ℝ) - (l.map (fun b : ℚ => (b : ℝ))).sum / (l.length : ℝ)) ^ 2)).sum /
              ((l.length : ℝ) - 1)))) ∧
      Cell.nan ≠ Cell.num 0 := by
  refine ⟨_, tf_ok df hidx hprob, ?_, ?_, ?_, ?_, by simp⟩
  · intro p hp
    obtain ⟨n, hn, hpn⟩ := List.mem_map.mp hp
    rw [← hpn]
    have : (groupKeys (df.getColD "idx")).length = (df.getColD "idx").toFinset.card :=
      Finset.length_sort _
    rw [← this]
    exact mem_columnOrder_length df _ n hn
  · rw [outCol, find?_map_pair _ _ _
      (by rw [columnOrder_eq]; exact List.mem_append_left _ (by simp))]
    rw [aggLookup_prob]
    rfl
  · intro c hc hcol
    constructor
    · rw [outCol, find?_map_pair _ _ _ ?hmem]
      case hmem =>
        rw [columnOrder_eq]
        refine List.mem_append_right _ (List.mem_flatMap.mpr ⟨c, ?_, by simp⟩)
        exact List.mem_filter.mpr ⟨hc, hcol⟩
      rw [aggLookup_avg df _ c hc hcol]
      rfl
    · rw [outCol, find?_map_pair _ _ _ ?hmem2]
      case hmem2 =>
        rw [columnOrder_eq]
        refine List.mem_append_right _ (List.mem_flatMap.mpr ⟨c, ?_, by simp⟩)
        exact List.mem_filter.mpr ⟨hc, hcol⟩
      rw [aggLookup_std df _ c hc hcol]
      rfl
  · intro l hl
    simp only [Cell.toReal]
    rw [sampleVar_cast]

/-- Witness for C9... none needed (no hypotheses); witness for C1 at the
docstring example table. -/
theorem transform_group_means_and_stds_witness :
    (exampleDF.hasCol "idx" = true ∧ exampleDF.hasCol "prob" = true) ∧
    (∃ out, transform_and_select_columns_dynamic exampleDF = Except.ok out ∧
      (∀ p ∈ out, p.2.length = (exampleDF.getColD "idx").toFinset.card) ∧
      outCol out "prob" =
        some ((groupKeys (exampleDF.getColD "idx")).map
          (fun v => Cell.num (listMean (groupVals (exampleDF.getColD "idx") (exampleDF.getColD "prob") v)))) ∧
      (∀ c ∈ signedCols, exampleDF.hasCol c = true →
        outCol out ("avg_" ++ c) =
          some ((groupKeys (exampleDF.getColD "idx")).map
            (fun v => Cell.num (listMean (groupVals (exampleDF.getColD "idx") (exampleDF.getColD c) v)))) ∧
        outCol out ("std_" ++ c) =
          some ((groupKeys (exampleDF.getColD "idx")).map
            (fun v =>
              if (groupVals (exampleDF.getColD "idx") (exampleDF.getColD c) v).length ≤ 1 then Cell.nan
              else Cell.sqrtOf (sampleVar (groupVals (exampleDF.getColD "idx") (exampleDF.getColD c) v))))) ∧
      (∀ l : List ℚ, 2 ≤ l.length →
        (Cell.sqrtOf (sampleVar l)).toReal =
          some (Real.sqrt
            ((l.map (fun a : ℚ =>
              ((a : ℝ) - (l.map (fun b : ℚ => (b : ℝ))).sum / (l.length : ℝ)) ^ 2)).sum /
              ((l.length : ℝ) - 1)))) ∧
      Cell.nan ≠ Cell.num 0) :=
  ⟨⟨by decide, by decide⟩,
    transform_group_means_and_stds exampleDF (by decide) (by decide)⟩

/-- Witness for C8 at the docstring example table (which carries the
non-matching extra column `foo`). -/
theorem transform_output_column_order_witness :
    (exampleDF.hasCol "idx" = true ∧ exampleDF.hasCol "prob" = true ∧
      exampleDF.hasCol "foo" = true) ∧
    (∃ out, transform_and_select_columns_dynamic exampleDF = Except.ok out ∧
      out.map Prod.fst =
        ["idx", "prob"] ++
          (signedCols.filter (fun c => exampleDF.hasCol c)).flatMap
            (fun c => ["avg_" ++ c, "std_" ++ c]) ∧
      ∀ s ∈ out.map Prod.fst,
        s = "idx" ∨ s = "prob" ∨
          ∃ c ∈ signedCols, exampleDF.hasCol c = true ∧
            (s = "avg_" ++ c ∨ s = "std_" ++ c)) :=
  ⟨⟨by decide, by decide, by decide⟩,
    transform_output_column_order exampleDF (by decide) (by decide)⟩

/-- Witness for C10 at the docstring example table. -/
theorem transform_rows_sorted_by_idx_witness :
    (exampleDF.hasCol "idx" = true ∧ exampleDF.hasCol "prob" = true) ∧
    (∃ out, transform_and_select_columns_dynamic exampleDF = Except.ok out ∧
      outCol out "idx" = some ((groupKeys (exampleDF.getColD "idx")).map Cell.num) ∧
      List.Sorted (· < ·) (groupKeys (exampleDF.getColD "idx")) ∧
      (∀ v, v ∈ groupKeys (exampleDF.getColD "idx") ↔ v ∈ exampleDF.getColD "idx")) :=
  ⟨⟨by decide, by decide⟩,
    transform_rows_sorted_by_idx exampleDF (by decide) (by decide)⟩

/-! ## Supporting lemmas: argmax and the fit window -/

lemma maxVal_cons (a : ℚ) (t : List ℚ) (h : t ≠ []) :
    maxVal (a :: t) = max a (maxVal t) := by
  cases t with
  | nil => cases h rfl
  | cons b t' => rfl

lemma le_maxVal (y : List ℚ) : ∀ a ∈ y, a ≤ maxVal y := by
  induction y with
  | nil => intro a ha; cases ha
  | cons b t ih =>
    intro a ha
    by_cases ht : t = []
    · subst ht
      rcases List.mem_cons.mp ha with h | h
      · subst h; exact le_refl _
      · cases h
    · rw [maxVal_cons b t ht]
      rcases List.mem_cons.mp ha with h | h
      · subst h; exact le_max_left _ _
      · exact le_trans (ih a h) (le_max_right _ _)

lemma maxVal_mem (y : List ℚ) (hy : y ≠ []) : maxVal y ∈ y := by
  induction y with
  | nil => cases hy rfl
  | cons b t ih =>
    by_cases ht : t = []
    · subst ht; exact List.mem_cons.mpr (Or.inl rfl)
    · rw [maxVal_cons b t ht]
      rcases max_choice b (maxVal t) with h | h
    <;> rw [h]
      · exact List.mem_cons.mpr (Or.inl rfl)
      · exact List.mem_cons.mpr (Or.inr (ih ht))

lemma idxOfMax_lt_length (y : List ℚ) (hy : y ≠ []) : idxOfMax y < y.length := by
  induction y with
  | nil => cases hy rfl
  | cons a t ih =>
    rw [idxOfMax]
    by_cases ha : a = maxVal (a :: t)
    · rw [if_pos ha]
      exact Nat.succ_pos _
    · have ht : t ≠ [] := by
        intro h
        subst h
        exact ha rfl
      simp only [if_neg ha, List.length_cons]
      exact Nat.succ_lt_succ (ih ht)

lemma maxVal_cons_of_ne (a : ℚ) (t : List ℚ) (ha : a ≠ maxVal (a :: t)) :
    maxVal (a :: t) = maxVal t := by
  have ht : t ≠ [] := by
    intro h
    subst h
    exact ha rfl
  rw [maxVal_cons a t ht]
  rcases max_choice a (maxVal t) with h | h
  · rw [maxVal_cons a t ht] at ha
    exact absurd h.symm ha
  · exact h

lemma getD_idxOfMax (y : List ℚ) (hy : y ≠ []) : y.getD (idxOfMax y) 0 = maxVal y := by
  induction y with
  | nil => cases hy rfl
  | cons a t ih =>
    rw [idxOfMax]
    by_cases ha : a = maxVal (a :: t)
    · simp [ha.symm]
    · have ht : t ≠ [] := by
        intro h
        subst h
        exact ha rfl
      simp only [if_neg ha, List.getD_cons_succ]
      rw [ih ht, maxVal_cons_of_ne a t ha]

lemma getD_before_idxOfMax (y : List ℚ) :
    ∀ j < idxOfMax y, y.getD j 0 ≠ maxVal y := by
  induction y with
  | nil => intro j hj; rw [idxOfMax] at hj; cases hj
  | cons a t ih =>
    intro j hj
    rw [idxOfMax] at hj
    by_cases ha : a = maxVal (a :: t)
    · rw [if_pos ha] at hj
      cases hj
    · rw [if_neg ha] at hj
      cases j with
      | zero => simpa using fun h => ha h
      | succ k =>
        rw [List.getD_cons_succ, maxVal_cons_of_ne a t ha]
        exact ih k (Nat.lt_of_succ_lt_succ hj)

lemma getD_le_maxVal (y : List ℚ) : ∀ j < y.length, y.getD j 0 ≤ maxVal y := by
  intro j hj
  rw [List.getD_eq_getElem y 0 hj]
  exact le_maxVal y _ (List.getElem_mem hj)

lemma finish_empirical (emx emy : ℚ) (c : List ℚ) (lo hi : ℚ)
    (roots : List (ℚ × ℚ)) :
    (finishComputeMax emx emy c lo hi roots).empirical_max_x = emx ∧
    (finishComputeMax emx emy c lo hi roots).empirical_max_y = emy := by
  unfold finishComputeMax
  cases pyMax (validPoints (polyEvalL c) lo hi (isrealFilter roots)) <;> exact ⟨rfl, rfl⟩

lemma windowStart_cast (i : ℕ) (offset : ℤ) :
    (windowStart i offset : ℤ) = max 0 ((i : ℤ) - offset) := by
  unfold windowStart
  rw [Int.toNat_of_nonneg (le_max_left _ _)]

lemma windowEnd_cast (n i : ℕ) (offset : ℤ) (hoff : 0 ≤ offset) :
    (windowEnd n i offset : ℤ) = min (n : ℤ) ((i : ℤ) + offset + 1) := by
  unfold windowEnd
  rw [if_neg (by omega)]
  rw [Int.toNat_of_nonneg (by omega)]

lemma windowStart_le (i : ℕ) (offset : ℤ) (hoff : 0 ≤ offset) :
    windowStart i offset ≤ i := by
  have := windowStart_cast i offset
  omega

lemma lt_windowEnd (n i : ℕ) (offset : ℤ) (hoff : 0 ≤ offset) (hi : i < n) :
    i < windowEnd n i offset := by
  have := windowEnd_cast n i offset hoff
  omega

lemma windowEnd_le (n i : ℕ) (offset : ℤ) (hoff : 0 ≤ offset) :
    windowEnd n i offset ≤ n := by
  have := windowEnd_cast n i offset hoff
  omega

lemma window_length (l : List ℚ) (i : ℕ) (offset : ℤ) (hoff : 0 ≤ offset)
    (hi : i < l.length) :
    (window l i offset).length =
      windowEnd l.length i offset - windowStart i offset := by
  unfold window
  rw [List.length_take, List.length_drop]
  have h1 := windowStart_le i offset hoff
  have h2 := windowEnd_le l.length i offset hoff
  omega

lemma window_getD (l : List ℚ) (i : ℕ) (offset : ℤ) (k : ℕ)
    (hoff : 0 ≤ offset) (hi : i < l.length)
    (hk : k < windowEnd l.length i offset - windowStart i offset) :
    (window l i offset).getD k 0 = l.getD (windowStart i offset + k) 0 := by
  have h2 := windowEnd_le l.length i offset hoff
  have hlen := window_length l i offset hoff hi
  unfold window at hlen ⊢
  rw [List.getD_eq_getElem _ 0 (by rw [hlen]; exact hk)]
  rw [List.getElem_take, List.getElem_drop]
  rw [List.getD_eq_getElem _ 0 (by omega)]

/-- C2: compute_max takes `idx_of_max` to be the first index attaining
the maximum of `y`, records `empirical_max_x = x[idx_of_max]` and
`empirical_max_y = y[idx_of_max]`, and the fit window is exactly the
half-open index range [max(0, idx_of_max-offset),
min(len(x), idx_of_max+offset+1)), clipped inside the sequence bounds. -/
theorem compute_max_empirical_and_window (x y : List ℚ) (offset : ℤ) (order : ℕ)
    (c : List ℚ) (roots : List (ℚ × ℚ))
    (hlen : x.length = y.length) (hy : y ≠ []) (hoff : 0 ≤ offset) :
    idxOfMax y < y.length ∧
    y.getD (idxOfMax y) 0 = maxVal y ∧
    (∀ j < idxOfMax y, y.getD j 0 ≠ maxVal y) ∧
    (∀ j < y.length, y.getD j 0 ≤ maxVal y) ∧
    (compute_max x y offset order c roots).empirical_max_x = x.getD (idxOfMax y) 0 ∧
    (compute_max x y offset order c roots).empirical_max_y = y.getD (idxOfMax y) 0 ∧
    (windowStart (idxOfMax y) offset : ℤ) = max 0 ((idxOfMax y : ℤ) - offset) ∧
    (windowEnd x.length (idxOfMax y) offset : ℤ) =
      min (x.length : ℤ) ((idxOfMax y : ℤ) + offset + 1) ∧
    windowEnd x.length (idxOfMax y) offset ≤ x.length ∧
    (window x (idxOfMax y) offset).length =
      windowEnd x.length (idxOfMax y) offset - windowStart (idxOfMax y) offset ∧
    (∀ k < (window x (idxOfMax y) offset).length,
      (window x (idxOfMax y) offset).getD k 0 =
        x.getD (windowStart (idxOfMax y) offset + k) 0) := by
  have himax : idxOfMax y < y.length := idxOfMax_lt_length y hy
  have himax' : idxOfMax y < x.length := by omega
  have hwl := window_length x (idxOfMax y) offset hoff himax'
  refine ⟨himax, getD_idxOfMax y hy, getD_before_idxOfMax y, getD_le_maxVal y,
    ?_, ?_, windowStart_cast _ _, windowEnd_cast _ _ _ hoff,
    windowEnd_le _ _ _ hoff, hwl, ?_⟩
  · exact (finish_empirical _ _ _ _ _ _).1
  · exact ((finish_empirical _ _ _ _ _ _).2).trans (getD_idxOfMax y hy).symm
  · intro k hk
    rw [hwl] at hk
    exact window_getD x (idxOfMax y) offset k hoff himax' hk

/-- Witness for C2 at x = [1, 2, 3], y = [1, 3, 2], offset = 1, order = 2. -/
theorem compute_max_empirical_and_window_witness :
    (([(1 : ℚ), 2, 3].length = [(1 : ℚ), 3, 2].length) ∧ [(1 : ℚ), 3, 2] ≠ [] ∧
      (0 : ℤ) ≤ 1) ∧
    (idxOfMax [(1 : ℚ), 3, 2] < [(1 : ℚ), 3, 2].length ∧
    [(1 : ℚ), 3, 2].getD (idxOfMax [(1 : ℚ), 3, 2]) 0 = maxVal [(1 : ℚ), 3, 2] ∧
    (∀ j < idxOfMax [(1 : ℚ), 3, 2], [(1 : ℚ), 3, 2].getD j 0 ≠ maxVal [(1 : ℚ), 3, 2]) ∧
    (∀ j < [(1 : ℚ), 3, 2].length, [(1 : ℚ), 3, 2].getD j 0 ≤ maxVal [(1 : ℚ), 3, 2]) ∧
    (compute_max [1, 2, 3] [1, 3, 2] 1 2 [] []).empirical_max_x =
      [(1 : ℚ), 2, 3].getD (idxOfMax [(1 : ℚ), 3, 2]) 0 ∧
    (compute_max [1, 2, 3] [1, 3, 2] 1 2 [] []).empirical_max_y =
      [(1 : ℚ), 3, 2].getD (idxOfMax [(1 : ℚ), 3, 2]) 0 ∧
    (windowStart (idxOfMax [(1 : ℚ), 3, 2]) 1 : ℤ) =
      max 0 ((idxOfMax [(1 : ℚ), 3, 2] : ℤ) - 1) ∧
    (windowEnd [(1 : ℚ), 2, 3].length (idxOfMax [(1 : ℚ), 3, 2]) 1 : ℤ) =
      min ([(1 : ℚ), 2, 3].length : ℤ) ((idxOfMax [(1 : ℚ), 3, 2] : ℤ) + 1 + 1) ∧
    windowEnd [(1 : ℚ), 2, 3].length (idxOfMax [(1 : ℚ), 3, 2]) 1 ≤ [(1 : ℚ), 2, 3].length ∧
    (window [1, 2, 3] (idxOfMax [(1 : ℚ), 3, 2]) 1).length =
      windowEnd [(1 : ℚ), 2, 3].length (idxOfMax [(1 : ℚ), 3, 2]) 1 -
        windowStart (idxOfMax [(1 : ℚ), 3, 2]) 1 ∧
    (∀ k < (window [1, 2, 3] (idxOfMax [(1 : ℚ), 3, 2]) 1).length,
      (window [1, 2, 3] (idxOfMax [(1 : ℚ), 3, 2]) 1).getD k 0 =
        [(1 : ℚ), 2, 3].getD (windowStart (idxOfMax [(1 : ℚ), 3, 2]) 1 + k) 0)) :=
  ⟨⟨by decide, by decide, by decide⟩,
    compute_max_empirical_and_window [1, 2, 3] [1, 3, 2] 1 2 [] []
      (by decide) (by decide) (by decide)⟩

/-- C4: when no valid critical point exists, compute_max does not fail:
it returns the result record with exactly the warning string
"No valid maxima found in polynomial fit" appended to the initially
empty warnings list, and with poly_max_x, poly_max_y, error_x and
error_y left as the missing-value marker. -/
theorem compute_max_no_valid_maxima (x y : List ℚ) (offset : ℤ) (order : ℕ)
    (c : List ℚ) (roots : List (ℚ × ℚ))
    (h : validPoints (polyEvalL c) (minVal (window x (idxOfMax y) offset))
        (maxVal (window x (idxOfMax y) offset)) (isrealFilter roots) = []) :
    compute_max x y offset order c roots =
      { empirical_max_x := empiricalMaxX x y,
        empirical_max_y := empiricalMaxY y,
        poly_max_x := none, poly_max_y := none,
        error_x := none, error_y := none,
        warnings := ["No valid maxima found in polynomial fit"] } := by
  unfold compute_max finishComputeMax
  rw [h]
  rfl

/-- Witness for C4: a strictly increasing window with a linear fit whose
derivative has no roots at all (np.roots of a constant is empty). -/
theorem compute_max_no_valid_maxima_witness :
    validPoints (polyEvalL [1, 0]) (minVal (window [0, 1, 2] (idxOfMax [(0 : ℚ), 1, 0]) 1))
        (maxVal (window [0, 1, 2] (idxOfMax [(0 : ℚ), 1, 0]) 1)) (isrealFilter []) = [] ∧
    compute_max [0, 1, 2] [0, 1, 0] 1 2 [1, 0] [] =
      { empirical_max_x := empiricalMaxX [0, 1, 2] [0, 1, 0],
        empirical_max_y := empiricalMaxY [0, 1, 0],
        poly_max_x := none, poly_max_y := none,
        error_x := none, error_y := none,
        warnings := ["No valid maxima found in polynomial fit"] } :=
  ⟨by decide,
    compute_max_no_valid_maxima [0, 1, 2] [0, 1, 0] 1 2 [1, 0] [] (by decide)⟩

/-- C5 (code evidence): with x = [0, 1], y = [0, 1], offset = 0 and
order = 2 the fit window holds a single point, fewer than the
order + 1 = 3 points a degree-2 fit needs, yet the pipeline performs no
validation and runs to completion, returning an ordinary result record:
the source has no error branch for a degenerate window or a
non-positive order (numpy emits only a RankWarning for the
rank-deficient fit), contrary to the claimed explicit error. -/
theorem compute_max_degenerate_window_not_rejected :
    (window [0, 1] (idxOfMax [(0 : ℚ), 1]) 0).length = 1 ∧
    (window [0, 1] (idxOfMax [(0 : ℚ), 1]) 0).length < 2 + 1 ∧
    compute_max [0, 1] [0, 1] 0 2 [] [] =
      { empirical_max_x := 1, empirical_max_y := 1,
        poly_max_x := none, poly_max_y := none,
        error_x := none, error_y := none,
        warnings := ["No valid maxima found in polynomial fit"] } :=
  ⟨by decide, by decide, by decide⟩

/-! ## Supporting lemmas: selection of the polynomial maximum -/

lemma foldl_pyMax_spec (ps : List (ℚ × ℚ)) :
    ∀ b : ℚ × ℚ,
      (ps.foldl (fun b q => if b.2 < q.2 then q else b) b = b ∨
        ps.foldl (fun b q => if b.2 < q.2 then q else b) b ∈ ps) ∧
      b.2 ≤ (ps.foldl (fun b q => if b.2 < q.2 then q else b) b).2 ∧
      ∀ q ∈ ps, q.2 ≤ (ps.foldl (fun b q => if b.2 < q.2 then q else b) b).2 := by
  induction ps with
  | nil => intro b; exact ⟨Or.inl rfl, le_refl _, fun q hq => absurd hq (List.not_mem_nil _)⟩
  | cons q t ih =>
    intro b
    rw [List.foldl_cons]
    by_cases hc : b.2 < q.2
    · rw [if_pos hc]
      obtain ⟨hmem, hle, hall⟩ := ih q
      refine ⟨?_, le_trans (le_of_lt hc) hle, ?_⟩
      · rcases hmem with h | h
        · exact Or.inr (List.mem_cons.mpr (Or.inl h))
        · exact Or.inr (List.mem_cons.mpr (Or.inr h))
      · intro u hu
        rcases List.mem_cons.mp hu with h | h
        · subst h; exact hle
        · exact hall u h
    · rw [if_neg hc]
      obtain ⟨hmem, hle, hall⟩ := ih b
      refine ⟨?_, hle, ?_⟩
      · rcases hmem with h | h
        · exact Or.inl h
        · exact Or.inr (List.mem_cons.mpr (Or.inr h))
      · intro u hu
        rcases List.mem_cons.mp hu with h | h
        · subst h; exact le_trans (le_of_not_lt hc) hle
        · exact hall u h

lemma pyMax_spec (l : List (ℚ × ℚ)) (p : ℚ × ℚ) (h : pyMax l = some p) :
    p ∈ l ∧ ∀ q ∈ l, q.2 ≤ p.2 := by
  cases l with
  | nil => cases h
  | cons b t =>
    rw [pyMax] at h
    obtain ⟨hmem, hle, hall⟩ := foldl_pyMax_spec t b
    have hp : t.foldl (fun b q => if b.2 < q.2 then q else b) b = p := by
      injection h
    rw [hp] at hmem hle hall
    refine ⟨?_, ?_⟩
    · rcases hmem with h1 | h1
      · exact h1 ▸ List.mem_cons.mpr (Or.inl rfl)
      · exact List.mem_cons.mpr (Or.inr h1)
    · intro q hq
      rcases List.mem_cons.mp hq with h1 | h1
      · subst h1; exact hle
      · exact hall q h1

lemma polyEvalFrom (c : List ℚ) :
    ∀ acc x : ℚ, c.foldl (fun b a => b * x + a) acc = acc * x ^ c.length + polyEvalL c x := by
  induction c with
  | nil => intro acc x; simp [polyEvalL]
  | cons a t ih =>
    intro acc x
    rw [List.foldl_cons, ih (acc * x + a) x]
    have h2 : polyEvalL (a :: t) x = (0 * x + a) * x ^ t.length + polyEvalL t x := by
      rw [polyEvalL, List.foldl_cons, ih (0 * x + a) x]
    rw [h2, List.length_cons]
    ring

lemma polyEvalL_cons (a : ℚ) (t : List ℚ) (x : ℚ) :
    polyEvalL (a :: t) x = a * x ^ t.length + polyEvalL t x := by
  rw [polyEvalL, List.foldl_cons, polyEvalFrom t (0 * x + a) x]
  ring

lemma polyEvalL_eq_sum (c : List ℚ) (x : ℚ) :
    polyEvalL c x = ∑ i ∈ Finset.range c.reverse.length, c.reverse.getD i 0 * x ^ i := by
  induction c with
  | nil => simp [polyEvalL]
  | cons a t ih =>
    rw [polyEvalL_cons, ih, List.reverse_cons]
    rw [show (t.reverse ++ [a]).length = t.reverse.length + 1 by simp]
    rw [Finset.sum_range_succ]
    have h1 : ∀ i ∈ Finset.range t.reverse.length,
        (t.reverse ++ [a]).getD i 0 * x ^ i = t.reverse.getD i 0 * x ^ i := by
      intro i hi
      have hi' := Finset.mem_range.mp hi
      rw [List.getD_eq_getElem _ 0 (by rw [List.length_append]; omega),
        List.getD_eq_getElem _ 0 hi']
      rw [List.getElem_append_left hi']
    have h2 : (t.reverse ++ [a]).getD t.reverse.length 0 = a := by
      rw [List.getD_eq_getElem _ 0 (by rw [List.length_append]; simp)]
      simp
    rw [Finset.sum_congr rfl h1, h2]
    rw [List.length_reverse]
    ring

lemma polyOf_eval (c : List ℚ) (x : ℚ) :
    Polynomial.eval x (polyOf c) = polyEvalL c x := by
  rw [polyOf, Polynomial.eval_finset_sum, polyEvalL_eq_sum]
  apply Finset.sum_congr rfl
  intro i _
  simp

lemma polyder_length (c : List ℚ) : (polyder c).length = c.length - 1 := by
  simp [polyder]

lemma polyder_getD (c : List ℚ) (j : ℕ) (hj : j < c.length - 1) :
    (polyder c).getD j 0 = c.getD j 0 * ((c.length - 1 - j : ℕ) : ℚ) := by
  rw [List.getD_eq_getElem _ 0 (by rw [polyder_length]; exact hj)]
  unfold polyder
  rw [List.getElem_map, List.getElem_range]

lemma polyder_reverse_getD (c : List ℚ) (i : ℕ) (hi : i < c.length - 1) :
    (polyder c).reverse.getD i 0 = c.reverse.getD (i + 1) 0 * ((i : ℚ) + 1) := by
  have hm := polyder_length c
  have h1 : i < (polyder c).reverse.length := by rw [List.length_reverse, hm]; omega
  have h2 : i + 1 < c.reverse.length := by rw [List.length_reverse]; omega
  rw [List.getD_eq_getElem _ 0 h1, List.getD_eq_getElem _ 0 h2]
  rw [List.getElem_reverse, List.getElem_reverse]
  rw [← List.getD_eq_getElem (polyder c) 0, ← List.getD_eq_getElem c 0]
  rw [polyder_getD c _ (by rw [hm]; omega)]
  have hidx : (polyder c).length - 1 - i = c.length - 1 - (i + 1) := by omega
  rw [hidx]
  congr 1
  have : c.length - 1 - (c.length - 1 - (i + 1)) = i + 1 := by omega
  rw [this]
  push_cast
  ring

lemma polyOf_polyder (c : List ℚ) :
    polyOf (polyder c) = Polynomial.derivative (polyOf c) := by
  unfold polyOf
  rw [map_sum]
  have hterm : ∀ i : ℕ, ∀ a : ℚ,
      Polynomial.derivative (Polynomial.C a * Polynomial.X ^ i) =
        Polynomial.C (a * (i : ℚ)) * Polynomial.X ^ (i - 1) := by
    intro i a
    simp [Polynomial.derivative_C_mul_X_pow]
    ring
  rw [Finset.sum_congr rfl (fun i _ => hterm i _)]
  cases hn : c.reverse.length with
  | zero =>
    have hc : c = [] := by
      have := List.length_reverse c
      exact List.eq_nil_of_length_eq_zero (by omega)
    subst hc
    simp [polyder]
  | succ k =>
    rw [Finset.sum_range_succ']
    have hg0 : Polynomial.C (c.reverse.getD 0 0 * ((0 : ℕ) : ℚ)) *
        Polynomial.X ^ (0 - 1 : ℕ) = 0 := by
      simp
    rw [hg0, add_zero]
    have hlen : (polyder c).reverse.length = k := by
      rw [List.length_reverse, polyder_length]
      rw [List.length_reverse] at hn
      omega
    rw [hlen]
    apply Finset.sum_congr rfl
    intro i hi
    have hik : i < k := Finset.mem_range.mp hi
    have hbound : i < c.length - 1 := by
      rw [List.length_reverse] at hn
      omega
    rw [polyder_reverse_getD c i hbound]
    have hpow : (i + 1 - 1 : ℕ) = i := by omega
    rw [hpow]
    congr 1
    push_cast
    ring

lemma mem_validPoints (f : ℚ → ℚ) (lo hi : ℚ) (roots : List (ℚ × ℚ)) (q : ℚ × ℚ) :
    q ∈ validPoints f lo hi (isrealFilter roots) ↔
      ((q.1, (0 : ℚ)) ∈ roots ∧ lo ≤ q.1 ∧ q.1 ≤ hi ∧ q.2 = f q.1) := by
  unfold validPoints isrealFilter
  constructor
  · intro hq
    obtain ⟨t, ht, hq2⟩ := List.mem_map.mp hq
    obtain ⟨htf, hcond⟩ := List.mem_filter.mp ht
    obtain ⟨z, hz, hz2⟩ := List.mem_map.mp htf
    obtain ⟨hzr, hz0⟩ := List.mem_filter.mp hz
    have hz0' : z.2 = 0 := of_decide_eq_true hz0
    have hcond' : lo ≤ t ∧ t ≤ hi := of_decide_eq_true hcond
    have hq1 : q.1 = t := by rw [← hq2]
    have hqv : q.2 = f t := by rw [← hq2]
    have hzq : z = (q.1, (0 : ℚ)) := by
      rw [hq1, ← hz2, ← hz0']
    refine ⟨hzq ▸ hzr, ?_, ?_, ?_⟩
    · rw [hq1]; exact hcond'.1
    · rw [hq1]; exact hcond'.2
    · rw [hqv, hq1]
  · rintro ⟨hroot, hlo, hhi, hval⟩
    refine List.mem_map.mpr ⟨q.1, List.mem_filter.mpr ⟨?_, ?_⟩, ?_⟩
    · exact List.mem_map.mpr ⟨(q.1, (0 : ℚ)), List.mem_filter.mpr ⟨hroot, by simp⟩, rfl⟩
    · exact decide_eq_true ⟨hlo, hhi⟩
    · exact Prod.ext rfl hval.symm

/-- C3: when a valid critical point exists, the candidate set is exactly
the supplied derivative roots with zero imaginary part whose real part
lies within the inclusive window bounds, paired with their fitted
values; the selected point maximises the fitted value among them;
compute_max fills in error_x and error_y as the absolute differences
from the empirical maximum; and the differentiated coefficient list is
the exact formal derivative of the fitted polynomial (which polyEvalL
evaluates). -/
theorem compute_max_critical_point_selection (x y : List ℚ) (offset : ℤ)
    (order : ℕ) (c : List ℚ) (roots : List (ℚ × ℚ)) (p : ℚ × ℚ)
    (hp : pyMax (validPoints (polyEvalL c)
        (minVal (window x (idxOfMax y) offset))
        (maxVal (window x (idxOfMax y) offset)) (isrealFilter roots)) = some p) :
    (∀ q : ℚ × ℚ,
      q ∈ validPoints (polyEvalL c) (minVal (window x (idxOfMax y) offset))
          (maxVal (window x (idxOfMax y) offset)) (isrealFilter roots) ↔
        ((q.1, (0 : ℚ)) ∈ roots ∧ minVal (window x (idxOfMax y) offset) ≤ q.1 ∧
          q.1 ≤ maxVal (window x (idxOfMax y) offset) ∧ q.2 = polyEvalL c q.1)) ∧
    p ∈ validPoints (polyEvalL c) (minVal (window x (idxOfMax y) offset))
        (maxVal (window x (idxOfMax y) offset)) (isrealFilter roots) ∧
    (∀ q ∈ validPoints (polyEvalL c) (minVal (window x (idxOfMax y) offset))
        (maxVal (window x (idxOfMax y) offset)) (isrealFilter roots), q.2 ≤ p.2) ∧
    compute_max x y offset order c roots =
      { empirical_max_x := empiricalMaxX x y, empirical_max_y := empiricalMaxY y,
        poly_max_x := some p.1, poly_max_y := some p.2,
        error_x := some |empiricalMaxX x y - p.1|,
        error_y := some |empiricalMaxY y - p.2|, warnings := [] } ∧
    polyOf (polyder c) = Polynomial.derivative (polyOf c) ∧
    (∀ t : ℚ, Polynomial.eval t (polyOf c) = polyEvalL c t) := by
  obtain ⟨hmem, hmax⟩ := pyMax_spec _ p hp
  refine ⟨fun q => mem_validPoints _ _ _ roots q, hmem, hmax, ?_,
    polyOf_polyder c, fun t => polyOf_eval c t⟩
  unfold compute_max finishComputeMax
  rw [hp]

/-- Witness for C3: a quadratic with coefficient list [-1, 0, 0] over
the window of x = [1, 2, 3] around the maximum of y = [1, 3, 2], with
the single real supplied root 2 of its derivative. -/
theorem compute_max_critical_point_selection_witness :
    (pyMax (validPoints (polyEvalL [-1, 0, 0])
        (minVal (window [1, 2, 3] (idxOfMax [(1 : ℚ), 3, 2]) 1))
        (maxVal (window [1, 2, 3] (idxOfMax [(1 : ℚ), 3, 2]) 1))
        (isrealFilter [((2 : ℚ), (0 : ℚ))])) =
      some ((2 : ℚ), polyEvalL [-1, 0, 0] 2)) ∧
    ((∀ q : ℚ × ℚ,
      q ∈ validPoints (polyEvalL [-1, 0, 0])
          (minVal (window [1, 2, 3] (idxOfMax [(1 : ℚ), 3, 2]) 1))
          (maxVal (window [1, 2, 3] (idxOfMax [(1 : ℚ), 3, 2]) 1))
          (isrealFilter [((2 : ℚ), (0 : ℚ))]) ↔
        ((q.1, (0 : ℚ)) ∈ [((2 : ℚ), (0 : ℚ))] ∧
          minVal (window [1, 2, 3] (idxOfMax [(1 : ℚ), 3, 2]) 1) ≤ q.1 ∧
          q.1 ≤ maxVal (window [1, 2, 3] (idxOfMax [(1 : ℚ), 3, 2]) 1) ∧
          q.2 = polyEvalL [-1, 0, 0] q.1)) ∧
    ((2 : ℚ), polyEvalL [-1, 0, 0] 2) ∈ validPoints (polyEvalL [-1, 0, 0])
        (minVal (window [1, 2, 3] (idxOfMax [(1 : ℚ), 3, 2]) 1))
        (maxVal (window [1, 2, 3] (idxOfMax [(1 : ℚ), 3, 2]) 1))
        (isrealFilter [((2 : ℚ), (0 : ℚ))]) ∧
    (∀ q ∈ validPoints (polyEvalL [-1, 0, 0])
        (minVal (window [1, 2, 3] (idxOfMax [(1 : ℚ), 3, 2]) 1))
        (maxVal (window [1, 2, 3] (idxOfMax [(1 : ℚ), 3, 2]) 1))
        (isrealFilter [((2 : ℚ), (0 : ℚ))]),
      q.2 ≤ ((2 : ℚ), polyEvalL [-1, 0, 0] 2).2) ∧
    compute_max [1, 2, 3] [1, 3, 2] 1 2 [-1, 0, 0] [((2 : ℚ), (0 : ℚ))] =
      { empirical_max_x := empiricalMaxX [1, 2, 3] [1, 3, 2],
        empirical_max_y := empiricalMaxY [1, 3, 2],
        poly_max_x := some ((2 : ℚ), polyEvalL [-1, 0, 0] 2).1,
        poly_max_y := some ((2 : ℚ), polyEvalL [-1, 0, 0] 2).2,
        error_x := some |empiricalMaxX [1, 2, 3] [1, 3, 2] -
          ((2 : ℚ), polyEvalL [-1, 0, 0] 2).1|,
        error_y := some |empiricalMaxY [1, 3, 2] -
          ((2 : ℚ), polyEvalL [-1, 0, 0] 2).2|, warnings := [] } ∧
    polyOf (polyder [-1, 0, 0]) = Polynomial.derivative (polyOf [-1, 0, 0]) ∧
    (∀ t : ℚ, Polynomial.eval t (polyOf [-1, 0, 0]) = polyEvalL [-1, 0, 0] t)) :=
  ⟨rfl,
    compute_max_critical_point_selection [1, 2, 3] [1, 3, 2] 1 2 [-1, 0, 0]
      [((2 : ℚ), (0 : ℚ))] ((2 : ℚ), polyEvalL [-1, 0, 0] 2) rfl⟩

/-! ## Supporting lemmas: weighted average -/

lemma listSum_map_eq (f : ℚ → ℚ) (l : List ℚ) :
    (l.map f).sum = ∑ i ∈ Finset.range l.length, f (l.getD i 0) := by
  induction l with
  | nil => simp
  | cons a t ih =>
    rw [List.map_cons, List.sum_cons, ih, List.length_cons, Finset.sum_range_succ']
    simp only [List.getD_cons_succ, List.getD_cons_zero]
    ring

lemma zipWith_weights_sum (vals errs : List ℚ) (hlen : vals.length = errs.length) :
    (List.zipWith (· * ·) vals (weights errs)).sum =
      ∑ i ∈ Finset.range errs.length, vals.getD i 0 * (1 / (errs.getD i 0) ^ 2) := by
  induction vals generalizing errs with
  | nil =>
    cases errs with
    | nil => simp
    | cons e es => simp at hlen
  | cons v vs ih =>
    cases errs with
    | nil => simp at hlen
    | cons e es =>
      have hlen' : vs.length = es.length := by simpa using hlen
      rw [weights, List.map_cons]
      rw [List.zipWith_cons_cons, List.sum_cons]
      rw [show (es.map fun e => 1 / e ^ 2) = weights es from rfl]
      rw [ih es hlen', List.length_cons, Finset.sum_range_succ']
      simp only [List.getD_cons_succ, List.getD_cons_zero]
      ring

/-- C6: the returned pair is (sum of value times weight over the sum of
weights, square root of the reciprocal weight sum) with weight
1/error squared; consequently two rows with equal strictly positive
error e average to the unweighted arithmetic mean with returned error
e / sqrt 2. -/
theorem weighted_average_with_error_spec (v1 v2 e : ℚ) (he : 0 < e) :
    (∀ vals errs : List ℚ, vals.length = errs.length →
      weighted_average_with_error vals errs =
        ((∑ i ∈ Finset.range errs.length, vals.getD i 0 * (1 / (errs.getD i 0) ^ 2)) /
          (∑ i ∈ Finset.range errs.length, 1 / (errs.getD i 0) ^ 2),
         Real.sqrt ((((1 : ℚ) /
            (∑ i ∈ Finset.range errs.length, 1 / (errs.getD i 0) ^ 2) : ℚ) : ℝ)))) ∧
    weighted_average [v1, v2] [e, e] = (v1 + v2) / 2 ∧
    (weighted_average_with_error [v1, v2] [e, e]).2 = (e : ℝ) / Real.sqrt 2 := by
  have hsumw : ∀ errs : List ℚ,
      (weights errs).sum = ∑ i ∈ Finset.range errs.length, 1 / (errs.getD i 0) ^ 2 := by
    intro errs
    rw [weights, listSum_map_eq]
  refine ⟨?_, ?_, ?_⟩
  · intro vals errs hlen
    unfold weighted_average_with_error weighted_average
    rw [zipWith_weights_sum vals errs hlen, hsumw errs]
  · unfold weighted_average weights
    simp only [List.map_cons, List.map_nil, List.zipWith_cons_cons, List.zipWith_nil_right,
      List.sum_cons, List.sum_nil]
    have he2 : e ^ 2 ≠ 0 := pow_ne_zero 2 he.ne'
    rw [div_eq_div_iff (by positivity) (by norm_num)]
    field_simp
    ring_nf
    try exact Or.inl trivial
  · unfold weighted_average_with_error
    have harg : (1 : ℚ) / (weights [e, e]).sum = e ^ 2 / 2 := by
      unfold weights
      simp only [List.map_cons, List.map_nil, List.sum_cons, List.sum_nil]
      have he2 : e ^ 2 ≠ 0 := pow_ne_zero 2 he.ne'
      rw [add_zero, div_add_div_same, one_div_div]
      norm_num
    show Real.sqrt ((((1 : ℚ) / (weights [e, e]).sum : ℚ) : ℝ)) = (e : ℝ) / Real.sqrt 2
    rw [harg]
    have hcast : ((e ^ 2 / 2 : ℚ) : ℝ) = (e : ℝ) ^ 2 / 2 := by push_cast; ring
    rw [hcast]
    rw [Real.sqrt_div (by positivity), Real.sqrt_sq (by exact_mod_cast he.le)]

/-- Witness for C6 at the spec example property = [10, 12], error = [1, 1]. -/
theorem weighted_average_with_error_spec_witness :
    ((0 : ℚ) < 1) ∧
    ((∀ vals errs : List ℚ, vals.length = errs.length →
      weighted_average_with_error vals errs =
        ((∑ i ∈ Finset.range errs.length, vals.getD i 0 * (1 / (errs.getD i 0) ^ 2)) /
          (∑ i ∈ Finset.range errs.length, 1 / (errs.getD i 0) ^ 2),
         Real.sqrt ((((1 : ℚ) /
            (∑ i ∈ Finset.range errs.length, 1 / (errs.getD i 0) ^ 2) : ℚ) : ℝ)))) ∧
    weighted_average [10, 12] [1, 1] = ((10 : ℚ) + 12) / 2 ∧
    (weighted_average_with_error [10, 12] [1, 1]).2 = ((1 : ℚ) : ℝ) / Real.sqrt 2) :=
  ⟨by decide, weighted_average_with_error_spec 10 12 1 (by decide)⟩

/-! ## Supporting lemmas: IEEE propagation in the weighted average -/

lemma add_not_fin_left (acc b : XF) (hacc : ∀ q, acc ≠ XF.fin q) :
    ∀ q, acc.add b ≠ XF.fin q := by
  intro q
  cases acc with
  | fin p => exact absurd rfl (hacc p)
  | inf => cases b <;> simp [XF.add]
  | ninf => cases b <;> simp [XF.add]
  | nan => cases b <;> simp [XF.add]

lemma add_not_fin_right (acc b : XF) (hb : ∀ q, b ≠ XF.fin q) :
    ∀ q, acc.add b ≠ XF.fin q := by
  intro q
  cases b with
  | fin p => exact absurd rfl (hb p)
  | inf => cases acc <;> simp [XF.add]
  | ninf => cases acc <;> simp [XF.add]
  | nan => cases acc <;> simp [XF.add]

lemma foldl_add_not_fin (l : List XF) :
    ∀ acc : XF, (∀ q, acc ≠ XF.fin q) → ∀ q, l.foldl XF.add acc ≠ XF.fin q := by
  induction l with
  | nil => intro acc h q; exact h q
  | cons a t ih =>
    intro acc h q
    rw [List.foldl_cons]
    exact ih _ (add_not_fin_left acc a h) q

lemma foldl_add_exists_not_fin (t : List XF) :
    ∀ acc, (∃ a ∈ t, ∀ q, a ≠ XF.fin q) → ∀ q, t.foldl XF.add acc ≠ XF.fin q := by
  induction t with
  | nil =>
    rintro acc ⟨a, ha, _⟩ q
    cases ha
  | cons b t' ih =>
    rintro acc ⟨a, ha, hnf⟩ q
    rw [List.foldl_cons]
    rcases List.mem_cons.mp ha with h1 | h1
    · subst h1
      exact foldl_add_not_fin t' _ (add_not_fin_right acc a hnf) q
    · exact ih _ ⟨a, h1, hnf⟩ q

lemma sum_not_fin (l : List XF) (h : ∃ a ∈ l, ∀ q, a ≠ XF.fin q) :
    ∀ q, XF.sum l ≠ XF.fin q :=
  foldl_add_exists_not_fin l (XF.fin 0) h

lemma add_finorinf (acc b : XF)
    (hacc : acc = XF.inf ∨ ∃ q, acc = XF.fin q)
    (hb : b = XF.inf ∨ ∃ q, b = XF.fin q) :
    acc.add b = XF.inf ∨ ∃ q, acc.add b = XF.fin q := by
  rcases hacc with h | ⟨q, h⟩ <;> subst h <;>
    rcases hb with h2 | ⟨r, h2⟩ <;> subst h2 <;> simp [XF.add]

lemma foldl_add_inf (t : List XF) :
    ∀ acc, (∀ a ∈ t, a = XF.inf ∨ ∃ q, a = XF.fin q) →
      (acc = XF.inf ∨ ∃ q, acc = XF.fin q) →
      (acc = XF.inf ∨ XF.inf ∈ t) →
      t.foldl XF.add acc = XF.inf := by
  induction t with
  | nil =>
    rintro acc _ _ (h | h)
    · exact h
    · cases h
  | cons b t' ih =>
    rintro acc hall hacc hand
    rw [List.foldl_cons]
    have hb := hall b (List.mem_cons.mpr (Or.inl rfl))
    refine ih _ (fun a ha => hall a (List.mem_cons.mpr (Or.inr ha)))
      (add_finorinf acc b hacc hb) ?_
    rcases hand with h | h
    · subst h
      left
      rcases hb with h2 | ⟨r, h2⟩ <;> subst h2 <;> simp [XF.add]
    · rcases List.mem_cons.mp h with h1 | h1
      · subst h1
        left
        rcases hacc with h2 | ⟨r, h2⟩ <;> subst h2 <;> simp [XF.add]
      · exact Or.inr h1

lemma sum_inf (l : List XF) (hall : ∀ a ∈ l, a = XF.inf ∨ ∃ q, a = XF.fin q)
    (hinf : XF.inf ∈ l) : XF.sum l = XF.inf :=
  foldl_add_inf l (XF.fin 0) hall (Or.inr ⟨0, rfl⟩) (Or.inr hinf)

lemma div_inf_of_not_fin (a : XF) (ha : ∀ q, a ≠ XF.fin q) : a.div XF.inf = XF.nan := by
  cases a with
  | fin p => exact absurd rfl (ha p)
  | inf => rfl
  | ninf => rfl
  | nan => rfl

lemma weight_entry_finorinf (e : ℚ) :
    (XF.fin 1).div ((XF.fin e).mul (XF.fin e)) = XF.inf ∨
      ∃ q, (XF.fin 1).div ((XF.fin e).mul (XF.fin e)) = XF.fin q := by
  by_cases h : e * e = 0
  · left
    simp [XF.mul, XF.div, h]
  · right
    exact ⟨1 / (e * e), by simp [XF.mul, XF.div, h]⟩

/-- C7 (amended): weighted_average_with_error does not raise on a zero
error value; the division by zero propagates through IEEE arithmetic as
infinity, so for any finite table with some zero error entry the
returned pair is (NaN, 0) — the average is NaN and the reported
uncertainty collapses to 0 (and the empty table yields (NaN, inf), see
the counterexample theorem). -/
theorem weighted_average_zero_error_propagates (vals errs : List ℚ)
    (hlen : vals.length = errs.length) (hz : (0 : ℚ) ∈ errs) :
    weighted_average_with_error_ieee (vals.map XF.fin) (errs.map XF.fin) =
      (XF.nan, XR.fin 0) := by
  have key : weighted_average_with_error_ieee (vals.map XF.fin) (errs.map XF.fin) =
      ((XF.sum (List.zipWith XF.mul (vals.map XF.fin)
          ((errs.map XF.fin).map (fun e => (XF.fin 1).div (e.mul e))))).div
        (XF.sum ((errs.map XF.fin).map (fun e => (XF.fin 1).div (e.mul e)))),
       ((XF.fin 1).div
          (XF.sum ((errs.map XF.fin).map (fun e => (XF.fin 1).div (e.mul e))))).fsqrt) := rfl
  rw [key]
  have hwmap : ((errs.map XF.fin).map (fun e => (XF.fin 1).div (e.mul e))) =
      errs.map (fun e => (XF.fin 1).div ((XF.fin e).mul (XF.fin e))) := by
    rw [List.map_map]
    rfl
  rw [hwmap]
  have hw_all : ∀ a ∈ errs.map (fun e => (XF.fin 1).div ((XF.fin e).mul (XF.fin e))),
      a = XF.inf ∨ ∃ q, a = XF.fin q := by
    intro a ha
    obtain ⟨e, _, hea⟩ := List.mem_map.mp ha
    rw [← hea]
    exact weight_entry_finorinf e
  have hw_inf : XF.inf ∈ errs.map (fun e => (XF.fin 1).div ((XF.fin e).mul (XF.fin e))) := by
    refine List.mem_map.mpr ⟨0, hz, ?_⟩
    simp [XF.mul, XF.div]
  have hsumw : XF.sum (errs.map (fun e => (XF.fin 1).div ((XF.fin e).mul (XF.fin e)))) =
      XF.inf := sum_inf _ hw_all hw_inf
  rw [hsumw]
  obtain ⟨i, hi, hival⟩ := List.mem_iff_getElem.mp hz
  have hiv : i < vals.length := by omega
  have hnum : ∀ q, XF.sum (List.zipWith XF.mul (vals.map XF.fin)
      (errs.map (fun e => (XF.fin 1).div ((XF.fin e).mul (XF.fin e))))) ≠ XF.fin q := by
    apply sum_not_fin
    have hilen : i < (List.zipWith XF.mul (vals.map XF.fin)
        (errs.map (fun e => (XF.fin 1).div ((XF.fin e).mul (XF.fin e))))).length := by
      rw [List.length_zipWith, List.length_map, List.length_map]
      omega
    refine ⟨_, List.getElem_mem hilen, ?_⟩
    rw [List.getElem_zipWith]
    rw [List.getElem_map, List.getElem_map]
    rw [hival]
    intro q
    by_cases hv : 0 < vals[i]
    · simp [XF.mul, XF.div, hv]
    · by_cases hv2 : vals[i] < 0
      · simp [XF.mul, XF.div, hv, hv2]
      · simp [XF.mul, XF.div, hv, hv2]
  rw [div_inf_of_not_fin _ hnum]
  have herr : ((XF.fin 1).div XF.inf).fsqrt = XR.fin 0 := by
    show (XF.fin 0).fsqrt = XR.fin 0
    simp [XF.fsqrt]
  rw [herr]

/-- C7 counterexample: with a zero error value (table value [1], error
[0]) the IEEE model of weighted_average_with_error returns the defined
pair (NaN, 0) rather than raising (numpy division by zero only emits a
RuntimeWarning); with the empty table it returns (NaN, inf).  The
claimed raised error never happens. -/
theorem weighted_average_no_raise_counterexample :
    weighted_average_with_error_ieee [XF.fin 1] [XF.fin 0] = (XF.nan, XR.fin 0) ∧
    weighted_average_with_error_ieee [] [] = (XF.nan, XR.inf) := by
  constructor
  · unfold weighted_average_with_error_ieee
    simp [XF.sum, XF.mul, XF.div, XF.add, XF.fsqrt]
  · unfold weighted_average_with_error_ieee
    simp [XF.sum, XF.div, XF.fsqrt]

/-- Witness for the amended C7 at values [2, 3] with errors [1, 0]. -/
theorem weighted_average_zero_error_propagates_witness :
    (([(2 : ℚ), 3].length = [(1 : ℚ), 0].length) ∧ (0 : ℚ) ∈ [(1 : ℚ), 0]) ∧
    weighted_average_with_error_ieee ([(2 : ℚ), 3].map XF.fin) ([(1 : ℚ), 0].map XF.fin) =
      (XF.nan, XR.fin 0) :=
  ⟨⟨by decide, by decide⟩,
    weighted_average_zero_error_propagates [2, 3] [1, 0] (by decide) (by decide)⟩
